import Mathlib

/-!
Shallow embedding of the merkle-drop repository's core:
the merkle proof library (src/helpers/merkle/src/proof.rs) and the
contract claim path (src/contracts/merkle-drop/src/contract.rs,
src/contracts/merkle-drop/src/error.rs).

Items and wire data are byte sequences, modelled as `List Nat`.
The hash module (`hash::leaf`, `hash::branch`) is not part of the
available sources; it is modelled from the spec as an ideal
domain-separated hash: a free term algebra in which leaf digests and
branch digests can never coincide and distinct inputs give distinct
digests (the spec's collision-resistance contract, idealized).
-/

/-- Modelled from the spec: the hash module producing `hash::Hash` digests is
not among the available sources. The spec requires two domain-separated,
collision-resistant, deterministic hash functions over byte sequences
(leaf vs branch tags). We model digests as the free term algebra generated
by those two constructors: an ideal collision-free hash. -/
inductive Digest where
  | leafD : List Nat → Digest
  | branchD : Digest → Digest → Digest
deriving DecidableEq, Repr

namespace hash

/-- Modelled from the spec: `leaf_hash(data)` — hashes `data` combined with the
fixed "leaf" domain tag. -/
def leaf (data : List Nat) : Digest := Digest.leafD data

/-- Modelled from the spec: `branch_hash(left, right)` — hashes the two child
digests with the fixed "branch" domain tag, in left-then-right order. -/
def branch (left right : Digest) : Digest := Digest.branchD left right

end hash

/-- `Entry` from src/helpers/merkle/src/proof.rs: one proof step, holding the
sibling digest and whether that sibling sits to the left of the path node. -/
structure Entry where
  is_left_sibling : Bool
  hash : Digest
deriving DecidableEq, Repr

/-- `Entry::new`. -/
def Entry.new (is_left_sibling : Bool) (hash : Digest) : Entry :=
  { is_left_sibling := is_left_sibling, hash := hash }

/-- `Proof` from src/helpers/merkle/src/proof.rs: a wrapper around the ordered
vector of entries (`Proof(Vec<Entry>)`). -/
structure Proof where
  entries : List Entry
deriving DecidableEq, Repr

/-- The closure passed to `try_fold` inside `Proof::verify`: combines the
current hash with one entry, in sibling order given by the flag, always
returning `Some`. -/
def tryFoldStep (cur_hash : Digest) (entry : Entry) : Option Digest :=
  if entry.is_left_sibling then
    some (hash.branch entry.hash cur_hash)
  else
    some (hash.branch cur_hash entry.hash)

/-- `Proof::verify` from src/helpers/merkle/src/proof.rs, translated step by
step: start from `hash::leaf(data)`, `try_fold` the entries with the
`Option`-valued closure, return `false` if the fold yielded `None`, otherwise
compare the unwrapped result with `root`. -/
def Proof.verify (p : Proof) (data : List Nat) (root : Digest) : Bool :=
  let initial_hash : Digest := hash.leaf data
  let result := List.foldlM tryFoldStep initial_hash p.entries
  if result.isNone then
    false
  else
    match result with
    | some h => h == root
    | none => false

/-- `Proof::verify` with the `result.unwrap()` call given an explicit panic
channel: `none` models a panic of `unwrap` on an empty option, `some b` models
a normal return of the boolean `b`. The source guards the unwrap with the
`result.is_none()` early return. -/
def Proof.verifyChecked (p : Proof) (data : List Nat) (root : Digest) : Option Bool :=
  let initial_hash : Digest := hash.leaf data
  let result := List.foldlM tryFoldStep initial_hash p.entries
  if result.isNone then
    some false
  else
    match result with
    | some h => some (h == root)
    | none => none

/-- `Proof::push`: appends one entry at the end of the entry vector
(`Vec::push`). Rust mutates in place; we return the updated proof. -/
def Proof.push (p : Proof) (is_left_sibling : Bool) (hash : Digest) : Proof :=
  { entries := p.entries ++ [{ is_left_sibling := is_left_sibling, hash := hash }] }

/-- `Proof::get_num_entries`: the length of the entry vector. -/
def Proof.get_num_entries (p : Proof) : Nat := p.entries.length

/-- `Proof::get_entry_at`: direct vector indexing `&self.0[index]`. An
out-of-bounds index panics in Rust; `none` models that panic. -/
def Proof.get_entry_at (p : Proof) (index : Nat) : Option Entry :=
  p.entries.get? index

/-- The same path computation as `Proof::verify`, written as a plain
(non-optional) left fold over the entries. -/
def foldSteps (entries : List Entry) (init : Digest) : Digest :=
  entries.foldl
    (fun cur e => if e.is_left_sibling then hash.branch e.hash cur else hash.branch cur e.hash)
    init

/-- Modelled from the spec: one pairing pass of the tree builder (the builder
itself is not among the available sources). Adjacent digests are paired with
`branch_hash(left, right)` preserving order; at an odd-sized level the last
unpaired digest is carried forward unchanged. -/
def nextLevel : List Digest → List Digest
  | a :: b :: rest => hash.branch a b :: nextLevel rest
  | l => l

/-- Modelled from the spec: repeat `nextLevel` until one digest remains — that
digest is the root; an empty level has no root. The first argument is fuel
bounding the number of passes (the level length always suffices, as proved
below); the fuel-exhausted branch is unreachable from `rootOfLevel`. -/
def rootOfLevelFuel : Nat → List Digest → Option Digest
  | _, [] => none
  | _, [d] => some d
  | 0, _ => none
  | fuel + 1, l => rootOfLevelFuel fuel (nextLevel l)

/-- Modelled from the spec: the root of a level, i.e. the result of pairing
passes until a single digest remains (`none` for an empty level). -/
def rootOfLevel (l : List Digest) : Option Digest :=
  rootOfLevelFuel l.length l

/-- Modelled from the spec: the proof entries recorded while walking from
position `i` of the given level up to the root. At each level the sibling
digest is recorded together with the side it sits on (`is_left_sibling = true`
when the sibling is to the left, i.e. the position is odd); when the position
is the unpaired last node of an odd-sized level no entry is recorded. The
first argument is fuel bounding the number of levels (the level length always
suffices, as proved below). -/
def pathEntriesFuel : Nat → List Digest → Nat → List Entry
  | _, [], _ => []
  | _, [_], _ => []
  | 0, _, _ => []
  | fuel + 1, l, i =>
    let tail := pathEntriesFuel fuel (nextLevel l) (i / 2)
    if i % 2 == 0 then
      match l.get? (i + 1) with
      | some sib => { is_left_sibling := false, hash := sib } :: tail
      | none => tail
    else
      match l.get? (i - 1) with
      | some sib => { is_left_sibling := true, hash := sib } :: tail
      | none => tail

/-- Modelled from the spec: the proof entries for position `i` of a level. -/
def pathEntries (l : List Digest) (i : Nat) : List Entry :=
  pathEntriesFuel l.length l i

namespace merkle

/-- Modelled from the spec: the Tree owns the ordered item sequence (its
per-level digests are derived data, recomputed here on demand). -/
structure Tree where
  items : List (List Nat)
deriving DecidableEq, Repr

/-- `Tree::new` — builds the tree from an ordered item sequence. -/
def Tree.new (items : List (List Nat)) : Tree := { items := items }

/-- Modelled from the spec: `get_root` returns `none` for an empty item
sequence, otherwise the single top-level digest obtained by repeatedly
pairing the leaf digests. -/
def Tree.get_root (t : Tree) : Option Digest :=
  rootOfLevel (t.items.map hash.leaf)

/-- Modelled from the spec: `find_proof` locates the first position whose item
equals the query by byte comparison (`none` if absent) and records the
sibling digest and side flag at each level up to the root. -/
def Tree.find_proof (t : Tree) (item : List Nat) : Option Proof :=
  match t.items.findIdx? (fun y => y == item) with
  | none => none
  | some i => some { entries := pathEntries (t.items.map hash.leaf) i }

end merkle

/-- Modelled from the spec: the transportable proof string is a
self-describing byte encoding. A digest is encoded as a leaf tag byte `0`
followed by a length byte and the data, or a branch tag byte `1` followed by
the two child encodings; decoding returns the digest and the unconsumed rest,
and fails on a truncated or unrecognized input. The fuel (first argument)
strictly exceeds the bytes consumed per call, so `input length + 1` always
suffices. -/
def decodeDigest : Nat → List Nat → Option (Digest × List Nat)
  | 0, _ => none
  | _ + 1, [] => none
  | _ + 1, 0 :: rest =>
    match rest with
    | [] => none
    | n :: rest2 =>
      if n ≤ rest2.length then
        some (Digest.leafD (rest2.take n), rest2.drop n)
      else
        none
  | fuel + 1, 1 :: rest =>
    match decodeDigest fuel rest with
    | none => none
    | some (left, rest2) =>
      match decodeDigest fuel rest2 with
      | none => none
      | some (right, rest3) => some (Digest.branchD left right, rest3)
  | _ + 1, _ :: _ => none

/-- Modelled from the spec: the entry sequence of a proof string. Each entry
is a side-flag byte (`0` = right sibling, `1` = left sibling) followed by an
encoded digest; the whole input must be consumed. -/
def decodeEntries : Nat → List Nat → Option (List Entry)
  | 0, _ => none
  | _ + 1, [] => some []
  | fuel + 1, b :: rest =>
    if b ≤ 1 then
      match decodeDigest (rest.length + 1) rest with
      | none => none
      | some (d, rest2) =>
        match decodeEntries fuel rest2 with
        | none => none
        | some es => some ({ is_left_sibling := b == 1, hash := d } :: es)
    else
      none

/-- Modelled from the spec: decoding a proof string — `none` is the decode
error for an ill-formed string, distinct from any verification outcome. -/
def decodeProof (s : List Nat) : Option Proof :=
  match decodeEntries (s.length + 1) s with
  | none => none
  | some es => some { entries := es }

/-- Modelled from the spec: decoding the stored root string into a digest;
the whole input must be consumed. -/
def decodeRoot (s : List Nat) : Option Digest :=
  match decodeDigest (s.length + 1) s with
  | some (d, []) => some d
  | _ => none

/-- The byte sequence of a string (Rust `str::as_bytes`; code points stand in
for bytes, which is faithful for the ASCII data at hand). -/
def strBytes (s : String) : List Nat :=
  s.data.map Char.toNat

/-- `ContractError` from src/contracts/merkle-drop/src/error.rs. `std` carries
the message of a wrapped `cosmwasm_std::StdError`. -/
inductive ContractError where
  | std : String → ContractError
  | unauthorized : ContractError
  | failedToDecodeRoot : String → ContractError
  | failedVerifyProof : ContractError
  | alreadyClaimed : String → ContractError
  | unknownReplyId : Nat → ContractError
  | failedToMint : ContractError
deriving DecidableEq, Repr

/-- `Config` from the contract state: the persisted merkle root in its stored
string form (kept here as the encoded byte form that `decodeRoot` reads) and
the owner address. -/
structure Config where
  merkle_root : List Nat
  owner : String
deriving DecidableEq, Repr

/-- The contract storage visible to `claim`: the config and the set of claim
strings already saved under the `CLAIM` map (a key is present iff it was
saved). -/
structure ContractState where
  config : Config
  claims : List String
deriving DecidableEq, Repr

/-- Modelled from the spec: `verify_proof` from
src/contracts/merkle-drop/src/execute.rs (not among the available sources).
It decodes the stored root string (failure is the `FailedToDecodeRoot`
error of src/contracts/merkle-drop/src/error.rs), decodes the proof string
(failure is a decode error wrapped as a std error), runs `Proof::verify` on
the claim bytes, and maps a `false` verification to the distinct
`FailedVerifyProof` error. -/
def verify_proof (root_str : List Nat) (proof_str : List Nat) (claim_bytes : List Nat) :
    Except ContractError Unit :=
  match decodeRoot root_str with
  | none => Except.error (ContractError.failedToDecodeRoot "FailedToDecodeRoot")
  | some root =>
    match decodeProof proof_str with
    | none => Except.error (ContractError.std "failed to decode proof string")
    | some p =>
      if p.verify claim_bytes root then
        Except.ok ()
      else
        Except.error ContractError.failedVerifyProof

/-- `claim` from src/contracts/merkle-drop/src/contract.rs: build the claim
string `format!("{}{}", sender, amount)`, reject with `AlreadyClaimed` when
the `CLAIM` map already holds that key, verify the proof (propagating its
error), and only then save the claim key. The mint submessage is an outward
effect and not part of the storage state; an error return rolls the
execution back, so no state is produced on the error paths. -/
def claim (st : ContractState) (sender : String) (amount : String) (proof_str : List Nat) :
    Except ContractError ContractState :=
  let claimStr := sender ++ amount
  if st.claims.contains claimStr then
    Except.error (ContractError.alreadyClaimed claimStr)
  else
    match verify_proof st.config.merkle_root proof_str (strBytes claimStr) with
    | Except.error e => Except.error e
    | Except.ok _ => Except.ok { st with claims := claimStr :: st.claims }

theorem foldlM_tryFoldStep (entries : List Entry) (init : Digest) :
    List.foldlM tryFoldStep init entries = some (foldSteps entries init) := by
  induction entries generalizing init with
  | nil => rfl
  | cons e es ih =>
    simp only [List.foldlM, tryFoldStep, foldSteps, List.foldl]
    by_cases hb : e.is_left_sibling = true
    · simp [hb, ih, foldSteps]
    · simp [hb, ih, foldSteps]

/-- **C1.** `Proof::verify` computes `current = leaf_hash(item)`, folds over the
entries in order — `branch_hash(sibling, current)` when `is_left_sibling`,
`branch_hash(current, sibling)` otherwise — and returns `true` exactly when the
final value equals `root`. -/
theorem verify_is_ordered_fold (p : Proof) (item : List Nat) (root : Digest) :
    p.verify item root = true ↔
      p.entries.foldl
        (fun cur e =>
          if e.is_left_sibling then hash.branch e.hash cur else hash.branch cur e.hash)
        (hash.leaf item) = root := by
  simp only [Proof.verify, foldlM_tryFoldStep]
  simp [foldSteps, beq_iff_eq]

/-- **C1 witness.** The characterization instantiated at a concrete one-entry
proof, item and root. -/
theorem verify_is_ordered_fold_witness :
    Proof.verify ⟨[⟨true, Digest.leafD [1]⟩]⟩ [2]
        (hash.branch (Digest.leafD [1]) (hash.leaf [2])) = true :=
  (verify_is_ordered_fold ⟨[⟨true, Digest.leafD [1]⟩]⟩ [2]
    (hash.branch (Digest.leafD [1]) (hash.leaf [2]))).mpr (by rfl)

/-- **C3.** `Proof::verify` is total and never signals failure through any
channel other than its boolean return value: with the `unwrap` given an
explicit panic channel, every proof, item and root evaluates to a normal
boolean return — the one `Proof.verify` computes. -/
theorem verify_total_no_panic (p : Proof) (data : List Nat) (root : Digest) :
    p.verifyChecked data root = some (p.verify data root) := by
  simp only [Proof.verifyChecked, Proof.verify, foldlM_tryFoldStep]
  simp

/-- **C8.** The closure passed to `try_fold` returns `Some` on every input, so
the fold never yields `None` (the `result.is_none()` branch is unreachable),
and `Proof::verify` equals the same computation written as a plain fold. -/
theorem verify_try_fold_never_none (p : Proof) (item : List Nat) (root : Digest) :
    (List.foldlM tryFoldStep (hash.leaf item) p.entries).isSome = true ∧
      p.verify item root = (foldSteps p.entries (hash.leaf item) == root) := by
  constructor
  · rw [foldlM_tryFoldStep]; rfl
  · simp only [Proof.verify, foldlM_tryFoldStep]
    simp

/-- **C9.** `Proof::get_entry_at` indexes the entry vector directly: any index
below `get_num_entries` returns the entry at that position, and any index at
or above it is a bounds violation (the modelled panic, `none`), so the
precondition `index < get_num_entries` is what makes the call safe. -/
theorem get_entry_at_indexes (p : Proof) (i : Nat) :
    p.get_entry_at i =
      if h : i < p.get_num_entries then some (p.entries.get ⟨i, h⟩) else none := by
  unfold Proof.get_entry_at Proof.get_num_entries
  split
  · exact List.get?_eq_get (by assumption)
  · exact List.get?_eq_none.mpr (by omega)

/-- **C10.** `Proof::push` appends exactly one entry at the end: the number of
entries grows by one, the old length now indexes the new entry, and every
index below the old length reads the same entry as before (indices past the
new end still read nothing). -/
theorem push_appends_one_entry (p : Proof) (b : Bool) (d : Digest) :
    (p.push b d).get_num_entries = p.get_num_entries + 1 ∧
      ∀ i : Nat,
        (p.push b d).get_entry_at i =
          if i = p.get_num_entries then some { is_left_sibling := b, hash := d }
          else p.get_entry_at i := by
  constructor
  · simp [Proof.push, Proof.get_num_entries]
  · intro i
    unfold Proof.push Proof.get_entry_at Proof.get_num_entries
    simp only [List.get?_eq_getElem?]
    rcases lt_trichotomy i p.entries.length with hlt | heq | hgt
    · rw [if_neg (by omega), List.getElem?_append_left hlt]
    · subst heq
      rw [if_pos rfl, List.getElem?_concat_length]
    · rw [if_neg (by omega), List.getElem?_eq_none (by simp; omega),
        List.getElem?_eq_none (by omega)]

/-- **C4.** Single-leaf scenario: for the tree built from `["A"]`, `get_root`
is exactly `leaf_hash("A")`, `find_proof` for `"A"` returns the proof with an
empty entry sequence, and the empty proof verifies any item against that
item's leaf hash. -/
theorem single_leaf_scenario :
    (merkle.Tree.new [[65]]).get_root = some (hash.leaf [65]) ∧
      (merkle.Tree.new [[65]]).find_proof [65] = some { entries := [] } ∧
      ∀ x : List Nat, Proof.verify { entries := [] } x (hash.leaf x) = true := by
  refine ⟨rfl, rfl, fun x => ?_⟩
  simp [Proof.verify]

theorem nextLevel_length : ∀ l : List Digest, (nextLevel l).length = (l.length + 1) / 2
  | [] => by simp [nextLevel]
  | [_] => by simp [nextLevel]
  | a :: b :: rest => by
    simp only [nextLevel, List.length_cons, nextLevel_length rest]
    omega

theorem nextLevel_get? :
    ∀ (l : List Digest) (k : Nat),
      (nextLevel l).get? k =
        match l.get? (2 * k) with
        | none => none
        | some x =>
          match l.get? (2 * k + 1) with
          | none => some x
          | some y => some (hash.branch x y)
  | [], _ => rfl
  | [_], 0 => rfl
  | [_], _ + 1 => rfl
  | _ :: _ :: _, 0 => rfl
  | _ :: _ :: rest, k + 1 => nextLevel_get? rest k

theorem foldSteps_cons (e : Entry) (es : List Entry) (init : Digest) :
    foldSteps (e :: es) init =
      foldSteps es
        (if e.is_left_sibling then hash.branch e.hash init else hash.branch init e.hash) :=
  rfl

theorem nextLevel_get?_pair (l : List Digest) (k : Nat) (x y : Digest)
    (hx : l.get? (2 * k) = some x) (hy : l.get? (2 * k + 1) = some y) :
    (nextLevel l).get? k = some (hash.branch x y) := by
  rw [nextLevel_get?, hx, hy]

theorem nextLevel_get?_carry (l : List Digest) (k : Nat) (x : Digest)
    (hx : l.get? (2 * k) = some x) (hy : l.get? (2 * k + 1) = none) :
    (nextLevel l).get? k = some x := by
  rw [nextLevel_get?, hx, hy]

theorem pathStep (fuel : Nat) (a b : Digest) (rest : List Digest) (i : Nat) (x : Digest)
    (hx : (a :: b :: rest).get? i = some x) :
    ∃ y, (nextLevel (a :: b :: rest)).get? (i / 2) = some y ∧
      foldSteps (pathEntriesFuel (fuel + 1) (a :: b :: rest) i) x =
        foldSteps (pathEntriesFuel fuel (nextLevel (a :: b :: rest)) (i / 2)) y := by
  have hi : i < (a :: b :: rest).length := by
    by_contra hc
    rw [List.get?_eq_none.mpr (by omega)] at hx
    exact Option.noConfusion hx
  rcases Nat.mod_two_eq_zero_or_one i with hpar | hpar
  · have h2i : 2 * (i / 2) = i := by omega
    by_cases hsib : i + 1 < (a :: b :: rest).length
    · have hy := List.get?_eq_get hsib
      refine ⟨_, nextLevel_get?_pair _ _ _ _ (by rw [h2i]; exact hx) (by rw [h2i]; exact hy), ?_⟩
      simp only [List.get?_eq_getElem?] at hy
      simp [pathEntriesFuel, hpar, hy, foldSteps_cons]
    · have hy : (a :: b :: rest).get? (i + 1) = none := List.get?_eq_none.mpr (by omega)
      refine ⟨x, nextLevel_get?_carry _ _ _ (by rw [h2i]; exact hx) (by rw [h2i]; exact hy), ?_⟩
      simp only [List.get?_eq_getElem?] at hy
      simp [pathEntriesFuel, hpar, hy]
  · have h2i : 2 * (i / 2) = i - 1 := by omega
    have h2i1 : 2 * (i / 2) + 1 = i := by omega
    have hprev : i - 1 < (a :: b :: rest).length := by omega
    have hyprev := List.get?_eq_get hprev
    refine ⟨_, nextLevel_get?_pair _ _ _ _ (by rw [h2i]; exact hyprev) (by rw [h2i1]; exact hx),
      ?_⟩
    have hif : (i % 2 == 0) = false := by simp [hpar]
    simp only [List.get?_eq_getElem?] at hyprev
    simp [pathEntriesFuel, hif, hyprev, foldSteps_cons]

theorem rootOfLevelFuel_path :
    ∀ (fuel : Nat) (l : List Digest) (i : Nat) (x : Digest),
      l.get? i = some x → l.length ≤ fuel →
      rootOfLevelFuel fuel l = some (foldSteps (pathEntriesFuel fuel l i) x) := by
  intro fuel
  induction fuel with
  | zero =>
    intro l i x hx hf
    have hnil : l = [] := List.length_eq_zero.mp (by omega)
    subst hnil
    simp at hx
  | succ n ih =>
    intro l i x hx hf
    cases l with
    | nil => simp at hx
    | cons a as =>
      cases as with
      | nil =>
        have hi : i < 1 := by
          by_contra hc
          rw [List.get?_eq_none.mpr (by simp; omega)] at hx
          exact Option.noConfusion hx
        have hi0 : i = 0 := by omega
        subst hi0
        have hax : a = x := by simpa using hx
        subst hax
        simp [rootOfLevelFuel, pathEntriesFuel, foldSteps]
      | cons b rest =>
        obtain ⟨y, hy, hstep⟩ := pathStep n a b rest i x hx
        have hfn : (nextLevel (a :: b :: rest)).length ≤ n := by
          rw [nextLevel_length]
          simp only [List.length_cons] at hf ⊢
          omega
        have hrec := ih (nextLevel (a :: b :: rest)) (i / 2) y hy hfn
        have hunf : rootOfLevelFuel (n + 1) (a :: b :: rest) =
            rootOfLevelFuel n (nextLevel (a :: b :: rest)) := by
          simp [rootOfLevelFuel]
        rw [hunf, hrec, hstep]

theorem findIdx?_beq_of_mem :
    ∀ (items : List (List Nat)) (x : List Nat), x ∈ items →
      ∃ i, items.findIdx? (fun y => y == x) = some i ∧ items.get? i = some x := by
  intro items
  induction items with
  | nil => intro x hx; simp at hx
  | cons y ys ih =>
    intro x hx
    by_cases hyx : (y == x) = true
    · refine ⟨0, ?_, ?_⟩
      · simp [List.findIdx?_cons, hyx]
      · simpa using (beq_iff_eq.mp hyx)
    · have hx' : x ∈ ys := by
        rcases List.mem_cons.mp hx with h | h
        · exact absurd (beq_iff_eq.mpr h.symm) hyx
        · exact h
      obtain ⟨i, hfind, hget⟩ := ih x hx'
      refine ⟨i + 1, ?_, ?_⟩
      · simp [List.findIdx?_cons, hyx, List.findIdx?_succ, hfind]
      · simpa using hget

/-- **C2.** Completeness round-trip: for every non-empty ordered item list and
every item occurring in it, the proof returned by `find_proof` together with
the digest returned by `get_root` make `verify` return `true` for that
item. -/
theorem find_proof_get_root_verify (items : List (List Nat)) (x : List Nat)
    (hne : items ≠ []) (hx : x ∈ items) :
    ∃ (p : Proof) (r : Digest),
      (merkle.Tree.new items).find_proof x = some p ∧
        (merkle.Tree.new items).get_root = some r ∧
        p.verify x r = true := by
  obtain ⟨i, hfind, hget⟩ := findIdx?_beq_of_mem items x hx
  have hleaf : (items.map hash.leaf).get? i = some (hash.leaf x) := by
    simp only [List.get?_eq_getElem?] at hget ⊢
    simp [List.getElem?_map, hget]
  have hroot := rootOfLevelFuel_path (items.map hash.leaf).length (items.map hash.leaf) i
    (hash.leaf x) hleaf (le_refl _)
  refine ⟨{ entries := pathEntries (items.map hash.leaf) i },
    foldSteps (pathEntriesFuel (items.map hash.leaf).length (items.map hash.leaf) i)
      (hash.leaf x), ?_, ?_, ?_⟩
  · simp [merkle.Tree.find_proof, merkle.Tree.new, hfind]
  · simpa [merkle.Tree.get_root, merkle.Tree.new, rootOfLevel] using hroot
  · simp only [Proof.verify, foldlM_tryFoldStep]
    simp [pathEntries]

/-- **C2 witness.** The round-trip instantiated at the five-item list of the
repository's own test, for the fourth item. -/
theorem find_proof_get_root_verify_witness :
    ([[0], [1], [2], [3], [4]] : List (List Nat)) ≠ [] ∧ [3] ∈ [[0], [1], [2], [3], [4]] ∧
      ∃ (p : Proof) (r : Digest),
        (merkle.Tree.new [[0], [1], [2], [3], [4]]).find_proof [3] = some p ∧
          (merkle.Tree.new [[0], [1], [2], [3], [4]]).get_root = some r ∧
          p.verify [3] r = true :=
  ⟨by decide, by decide,
    find_proof_get_root_verify [[0], [1], [2], [3], [4]] [3] (by decide) (by decide)⟩

theorem pathEntriesFuel_congr :
    ∀ (fuel : Nat) (l : List Digest) (fuel' i : Nat),
      l.length ≤ fuel → l.length ≤ fuel' →
      pathEntriesFuel fuel l i = pathEntriesFuel fuel' l i := by
  intro fuel
  induction fuel with
  | zero =>
    intro l fuel' i h h'
    have hnil : l = [] := List.length_eq_zero.mp (by omega)
    subst hnil
    cases fuel' <;> rfl
  | succ n ih =>
    intro l fuel' i h h'
    cases l with
    | nil => cases fuel' <;> rfl
    | cons a as =>
      cases as with
      | nil => cases fuel' <;> rfl
      | cons b rest =>
        cases fuel' with
        | zero =>
          simp only [List.length_cons] at h'
          omega
        | succ m =>
          have hnl : (nextLevel (a :: b :: rest)).length ≤ n := by
            rw [nextLevel_length]
            simp only [List.length_cons] at h ⊢
            omega
          have hnl' : (nextLevel (a :: b :: rest)).length ≤ m := by
            rw [nextLevel_length]
            simp only [List.length_cons] at h' ⊢
            omega
          simp only [pathEntriesFuel]
          rw [ih (nextLevel (a :: b :: rest)) m (i / 2) hnl hnl']

/-- **C5.** Odd-level policy: at a level with an odd number of digests the
last, unpaired digest is carried forward unchanged into the next level — the
next level has exactly ⌈n/2⌉ digests (no synthetic duplicate) and its last
position holds the very digest that was last in the odd level — and the path
walk emits no Entry at such a level for that node: its entries there are
exactly the entries computed from the carried digest's position in the next
level. -/
theorem odd_level_carries_last_unpaired (l : List Digest)
    (h2 : 2 ≤ l.length) (hodd : l.length % 2 = 1) :
    (nextLevel l).length = (l.length + 1) / 2 ∧
      (nextLevel l).get? (l.length / 2) = l.get? (l.length - 1) ∧
      pathEntries l (l.length - 1) = pathEntries (nextLevel l) ((l.length - 1) / 2) := by
  have h3 : 3 ≤ l.length := by omega
  have hlast : l.length - 1 < l.length := by omega
  have hx := List.get?_eq_get hlast
  refine ⟨nextLevel_length l, ?_, ?_⟩
  · have h2i : 2 * (l.length / 2) = l.length - 1 := by omega
    have hnone : l.get? (2 * (l.length / 2) + 1) = none :=
      List.get?_eq_none.mpr (by omega)
    rw [nextLevel_get?_carry l (l.length / 2) _ (by rw [h2i]; exact hx) hnone, hx]
  · cases l with
    | nil => simp at h2
    | cons a as =>
      cases as with
      | nil => simp at h2
      | cons b rest =>
        have hpar : (rest.length + 1) % 2 = 0 := by
          simp only [List.length_cons] at hodd
          omega
        have hnone : (a :: b :: rest).get? ((a :: b :: rest).length - 1 + 1) = none :=
          List.get?_eq_none.mpr (by simp)
        simp only [pathEntries, pathEntriesFuel, List.length_cons]
        simp only [List.length_cons] at hnone
        simp only [List.get?_eq_getElem?] at hnone
        simp [hpar, hnone]
        apply pathEntriesFuel_congr
        · rw [nextLevel_length]
          simp only [List.length_cons]
          omega
        · exact le_refl _

/-- **C5 witness.** The odd-level policy at a concrete three-digest level. -/
theorem odd_level_carries_last_unpaired_witness :
    2 ≤ ([Digest.leafD [0], Digest.leafD [1], Digest.leafD [2]] : List Digest).length ∧
      ([Digest.leafD [0], Digest.leafD [1], Digest.leafD [2]] : List Digest).length % 2 = 1 ∧
      (nextLevel [Digest.leafD [0], Digest.leafD [1], Digest.leafD [2]]).length = 2 ∧
      (nextLevel [Digest.leafD [0], Digest.leafD [1], Digest.leafD [2]]).get? 1 =
        some (Digest.leafD [2]) ∧
      pathEntries [Digest.leafD [0], Digest.leafD [1], Digest.leafD [2]] 2 =
        pathEntries (nextLevel [Digest.leafD [0], Digest.leafD [1], Digest.leafD [2]]) 1 := by
  have h := odd_level_carries_last_unpaired
    [Digest.leafD [0], Digest.leafD [1], Digest.leafD [2]] (by decide) (by decide)
  exact ⟨by decide, by decide, h.1, h.2.1, h.2.2⟩

/-- **C6.** At the proof serialization boundary, an ill-formed input is a
decode error distinct from a verification outcome: `verify_proof` returns the
verification outcome (`ok` for verified, the `FailedVerifyProof` error for
not verified) exactly when both the root string and the proof string decode,
and an input whose decoding fails is never reported as one of those two
outcomes. -/
theorem decode_error_distinct_from_not_verified (rs ps c : List Nat) :
    ((verify_proof rs ps c = Except.ok () ∨
        verify_proof rs ps c = Except.error ContractError.failedVerifyProof) ↔
      ∃ r p, decodeRoot rs = some r ∧ decodeProof ps = some p) ∧
    (verify_proof rs ps c = Except.error ContractError.failedVerifyProof ↔
      ∃ r p, decodeRoot rs = some r ∧ decodeProof ps = some p ∧ p.verify c r = false) ∧
    (verify_proof rs ps c = Except.ok () ↔
      ∃ r p, decodeRoot rs = some r ∧ decodeProof ps = some p ∧ p.verify c r = true) := by
  cases hr : decodeRoot rs with
  | none => simp [verify_proof, hr]
  | some r =>
    cases hp : decodeProof ps with
    | none => simp [verify_proof, hr, hp]
    | some p =>
      by_cases hv : p.verify c r = true
      · simp [verify_proof, hr, hp, hv]
      · simp only [Bool.not_eq_true] at hv
        simp [verify_proof, hr, hp, hv]

/-- **C7.** Replay protection in the contract's `claim`: a claim string whose
key is already stored fails with `AlreadyClaimed` no matter what proof comes
with it; a successful claim has a verified proof, records its claim string,
and any repeat of the same sender and amount on the resulting state fails
with `AlreadyClaimed`; successful executions never drop stored claim keys;
and when the proof fails to verify, the execution fails with that error (so
nothing is recorded: an erroring execution produces no state). -/
theorem claim_replay_protection (st : ContractState) (sender amount : String)
    (p : List Nat) :
    ((sender ++ amount) ∈ st.claims →
      claim st sender amount p =
        Except.error (ContractError.alreadyClaimed (sender ++ amount))) ∧
    (∀ st2, claim st sender amount p = Except.ok st2 →
      (sender ++ amount) ∈ st2.claims ∧
        verify_proof st.config.merkle_root p (strBytes (sender ++ amount)) = Except.ok () ∧
        ∀ p2, claim st2 sender amount p2 =
          Except.error (ContractError.alreadyClaimed (sender ++ amount))) ∧
    (∀ st2 sender2 amount2 p2, claim st sender2 amount2 p2 = Except.ok st2 →
      ∀ c, c ∈ st.claims → c ∈ st2.claims) ∧
    (∀ e, (sender ++ amount) ∉ st.claims →
      verify_proof st.config.merkle_root p (strBytes (sender ++ amount)) = Except.error e →
      claim st sender amount p = Except.error e) := by
  refine ⟨?_, ?_, ?_, ?_⟩
  · intro h
    simp [claim, h]
  · intro st2 h
    by_cases hc : (sender ++ amount) ∈ st.claims
    · simp [claim, hc] at h
    · cases hv : verify_proof st.config.merkle_root p (strBytes (sender ++ amount)) with
      | error e => simp [claim, hc, hv] at h
      | ok u =>
        cases u
        simp [claim, hc, hv] at h
        subst h
        exact ⟨by simp, rfl, fun p2 => by simp [claim]⟩
  · intro st2 sender2 amount2 p2 h c hc
    by_cases hc2 : (sender2 ++ amount2) ∈ st.claims
    · simp [claim, hc2] at h
    · cases hv : verify_proof st.config.merkle_root p2 (strBytes (sender2 ++ amount2)) with
      | error e => simp [claim, hc2, hv] at h
      | ok u =>
        simp [claim, hc2, hv] at h
        subst h
        exact List.mem_cons_of_mem _ hc
  · intro e hnc hv
    simp [claim, hnc, hv]

/-- **C9 witness.** The indexing characterization at a concrete one-entry
proof, in bounds and out of bounds. -/
theorem get_entry_at_indexes_witness :
    Proof.get_entry_at { entries := [{ is_left_sibling := true, hash := Digest.leafD [5] }] } 0 =
        some { is_left_sibling := true, hash := Digest.leafD [5] } ∧
      Proof.get_entry_at { entries := [{ is_left_sibling := true, hash := Digest.leafD [5] }] } 1 =
        none := by
  constructor
  · rw [get_entry_at_indexes]
    decide
  · rw [get_entry_at_indexes]
    decide

/-- **C10 witness.** The push characterization at a concrete empty proof. -/
theorem push_appends_one_entry_witness :
    (Proof.push { entries := [] } false (Digest.leafD [9])).get_num_entries = 1 ∧
      (Proof.push { entries := [] } false (Digest.leafD [9])).get_entry_at 0 =
        some { is_left_sibling := false, hash := Digest.leafD [9] } := by
  have h := push_appends_one_entry { entries := [] } false (Digest.leafD [9])
  exact ⟨h.1.trans (by decide), (h.2 0).trans (by decide)⟩

/-- **C6 witness.** An ill-formed root string (`[2]` is no valid encoding) is
reported as neither the verified nor the not-verified outcome. -/
theorem decode_error_distinct_witness :
    verify_proof [2] [] [] ≠ Except.ok () ∧
      verify_proof [2] [] [] ≠ Except.error ContractError.failedVerifyProof := by
  have h := (decode_error_distinct_from_not_verified [2] [] []).1
  constructor
  · intro hok
    obtain ⟨r, p, hr, -⟩ := h.mp (Or.inl hok)
    rw [show decodeRoot [2] = none from by decide] at hr
    exact Option.noConfusion hr
  · intro herr
    obtain ⟨r, p, hr, -⟩ := h.mp (Or.inr herr)
    rw [show decodeRoot [2] = none from by decide] at hr
    exact Option.noConfusion hr

/-- **C7 witness.** A concrete successful claim (empty proof against the
stored single-leaf root for the claim string `"ab"`) followed by the same
sender and amount again: the second execution fails with `AlreadyClaimed`. -/
theorem claim_replay_protection_witness :
    claim ⟨⟨[0, 2, 97, 98], "o"⟩, []⟩ "a" "b" [] =
        Except.ok (⟨⟨[0, 2, 97, 98], "o"⟩, ["ab"]⟩ : ContractState) ∧
      claim ⟨⟨[0, 2, 97, 98], "o"⟩, ["ab"]⟩ "a" "b" [] =
        Except.error (ContractError.alreadyClaimed "ab") := by
  have hok : claim ⟨⟨[0, 2, 97, 98], "o"⟩, []⟩ "a" "b" [] =
      Except.ok (⟨⟨[0, 2, 97, 98], "o"⟩, ["ab"]⟩ : ContractState) := by
    rfl
  refine ⟨hok, ?_⟩
  exact ((claim_replay_protection ⟨⟨[0, 2, 97, 98], "o"⟩, []⟩ "a" "b" []).2.1
    ⟨⟨[0, 2, 97, 98], "o"⟩, ["ab"]⟩ hok).2.2 []
